import Mathlib

/-!
Verification of `egui_plot`'s `axis_transform.rs` (linear axis transform and
grid-mark generation).

The source operates on `f64`; this development embeds it over exact rational
arithmetic (`ℚ`), so every arithmetic identity below is the exact counterpart
of the source's floating-point computation.  The ceil-of-logarithm in
`next_power` is embedded as `Int.clog`, which Mathlib proves equal to
`⌈Real.logb b r⌉` (`Real.ceil_logb_natCast`), i.e. the exact value the source
approximates with `value.abs().log(base).ceil()`.  For the float comparator
`cmp_f64`, which must also handle not-a-number inputs, a dedicated type `F64`
with an explicit NaN point is used (infinities are not needed by any claim and
never reach the comparator on the grid path).
-/

/-- `GridMark { value, step_size }` from the source crate: one tick position
together with the density tier (step size) that produced it. -/
structure GridMark where
  value : ℚ
  step_size : ℚ
deriving DecidableEq, Repr

/-- `GridInput`: the caller's visible-range request. -/
structure GridInput where
  bounds : ℚ × ℚ
  base_step_size : ℚ

/-- `LinearAxisTransform { invert }`. -/
structure LinearAxisTransform where
  invert : Bool

/-- `fn sign(&self) -> f64 { if self.invert { -1.0 } else { 1.0 } }` -/
def LinearAxisTransform.sign (t : LinearAxisTransform) : ℚ :=
  if t.invert then -1 else 1

/-- `self.sign() * (x - data_bounds[0]) / (data_bounds[1] - data_bounds[0])` -/
def LinearAxisTransform.data_to_plot (t : LinearAxisTransform) (data_bounds : ℚ × ℚ)
    (x : ℚ) : ℚ :=
  t.sign * (x - data_bounds.1) / (data_bounds.2 - data_bounds.1)

/-- `data_bounds[0] + self.sign() * x * (data_bounds[1] - data_bounds[0])` -/
def LinearAxisTransform.plot_to_data (t : LinearAxisTransform) (data_bounds : ℚ × ℚ)
    (x : ℚ) : ℚ :=
  data_bounds.1 + t.sign * x * (data_bounds.2 - data_bounds.1)

/-- `fn next_power(value: f64, base: f64) -> f64`:
`base.powi(value.abs().log(base).ceil() as i32)`.  Exactly embedded:
`Int.clog base |value| = ⌈logb base |value|⌉`. -/
def next_power (value : ℚ) (base : ℕ) : ℚ :=
  (base : ℚ) ^ Int.clog base |value|

/-- `fn fill_marks_between(out, step_size, (min, max))`: appends a mark
`{ value: i * step_size, step_size }` for every integer `i` with
`ceil(min / step_size) <= i < ceil(max / step_size)`. -/
def fill_marks_between (out : List GridMark) (step_size : ℚ) (bounds : ℚ × ℚ) :
    List GridMark :=
  let first : ℤ := ⌈bounds.1 / step_size⌉
  let last : ℤ := ⌈bounds.2 / step_size⌉
  out ++ (List.range (last - first).toNat).map fun k =>
    { value := (first + (k : ℤ)) * step_size, step_size := step_size }

/-- The order used by `steps.sort_by(|a, b| cmp_f64(a.value, b.value))`: on the
grid path all values are finite, where `cmp_f64` is the usual numeric order. -/
def markLE (a b : GridMark) : Prop := a.value ≤ b.value

instance : DecidableRel markLE := fun a b => inferInstanceAs (Decidable (a.value ≤ b.value))

instance : IsTotal GridMark markLE := ⟨fun a b => le_total a.value b.value⟩

instance : IsTrans GridMark markLE := ⟨fun _ _ _ => le_trans⟩

/-- `steps.sort_by(|a, b| cmp_f64(a.value, b.value))`.  Rust's `sort_by` is a
stable sort; `List.insertionSort` is stable, so the two agree exactly
(a stable sort's output is unique for a total preorder). -/
def sort_marks (l : List GridMark) : List GridMark := l.insertionSort markLE

/-- One iteration of the deduplication loop in `generate_marks`, with the
accumulator kept in reverse order (head = last kept mark):
if the new mark is within `eps` of the last kept mark, keep whichever of the
two has the larger `step_size`; otherwise push the new mark. -/
def dedup_step (eps : ℚ) : List GridMark → GridMark → List GridMark
  | [], step => [step]
  | last :: rest, step =>
    if |last.value - step.value| < eps then
      if last.step_size < step.step_size then step :: rest else last :: rest
    else step :: last :: rest

/-- `step_sizes.iter().fold(f64::INFINITY, |a, &b| a.min(b))`: the minimum of
the three step sizes. -/
def min_step (step_sizes : ℚ × ℚ × ℚ) : ℚ :=
  min step_sizes.1 (min step_sizes.2.1 step_sizes.2.2)

/-- `fn generate_marks(step_sizes: [f64; 3], bounds: (f64, f64))`: fill the
three tiers, sort by value, then deduplicate with `eps = 0.1 * min_step`. -/
def generate_marks (step_sizes : ℚ × ℚ × ℚ) (bounds : ℚ × ℚ) : List GridMark :=
  let steps :=
    fill_marks_between
      (fill_marks_between (fill_marks_between [] step_sizes.1 bounds) step_sizes.2.1 bounds)
      step_sizes.2.2 bounds
  let eps := 1 / 10 * min_step step_sizes
  ((sort_marks steps).foldl (dedup_step eps) []).reverse

/-- `f64::EPSILON = 2⁻⁵²`. -/
def f64_EPSILON : ℚ := 1 / 2 ^ 52

/-- `fn grid_marks(&self, input: &GridInput)`: degenerate guard, then the
three-tier list `[unit, unit·10, unit·100]` with
`unit = next_power(base_step_size, 10)`. -/
def LinearAxisTransform.grid_marks (_t : LinearAxisTransform) (input : GridInput) :
    List GridMark :=
  let log_base : ℕ := 10
  if |input.base_step_size| < f64_EPSILON then [] else
  let smallest_visible_unit := next_power input.base_step_size log_base
  generate_marks
    (smallest_visible_unit, smallest_visible_unit * 10, smallest_visible_unit * 10 * 10)
    input.bounds

/-- Model of `f64` for the comparator: a finite value or NaN (infinities are
irrelevant to the comparator claims and never arise on the grid path). -/
inductive F64 where
  | finite (q : ℚ)
  | nan
deriving DecidableEq

/-- `f64::is_nan`. -/
def F64.is_nan : F64 → Bool
  | .nan => true
  | .finite _ => false

/-- `f64::partial_cmp`: `Some` of the numeric order on two non-NaN values
(`Less` if `x < y`, `Equal` if `x = y`, `Greater` otherwise),
`None` as soon as one operand is NaN. -/
def partialCmp : F64 → F64 → Option Ordering
  | .finite x, .finite y =>
      some (if x < y then .lt else if x = y then .eq else .gt)
  | _, _ => none

/-- `fn cmp_f64(a: f64, b: f64) -> Ordering`:
`a.partial_cmp(&b)` if it exists, else `a.is_nan().cmp(&b.is_nan())`
(Rust's `Ord` on `bool` has `false < true`). -/
def cmp_f64 (a b : F64) : Ordering :=
  match partialCmp a b with
  | some ord => ord
  | none => compare a.is_nan b.is_nan

/-- C1: Round-trip: for every bounds pair with `bounds.min ≠ bounds.max`, every
invert flag, and every `x`, `plot_to_data(bounds, data_to_plot(bounds, x)) = x`
exactly over the embedded arithmetic. -/
theorem plot_to_data_data_to_plot (t : LinearAxisTransform) (bmin bmax x : ℚ)
    (h : bmin ≠ bmax) :
    t.plot_to_data (bmin, bmax) (t.data_to_plot (bmin, bmax) x) = x := by
  have hd : bmax - bmin ≠ 0 := sub_ne_zero.mpr (Ne.symm h)
  rcases t with ⟨i⟩
  cases i <;>
    simp only [LinearAxisTransform.plot_to_data, LinearAxisTransform.data_to_plot,
      LinearAxisTransform.sign, if_true, if_false, Bool.false_eq_true] <;>
    field_simp

/-- Witness for C1 at `bounds = (0, 10)`, `invert = false`, `x = 5`. -/
theorem plot_to_data_data_to_plot_witness :
    ((0 : ℚ) ≠ 10) ∧
      (LinearAxisTransform.mk false).plot_to_data (0, 10)
        ((LinearAxisTransform.mk false).data_to_plot (0, 10) 5) = 5 :=
  ⟨by norm_num, plot_to_data_data_to_plot ⟨false⟩ 0 10 5 (by norm_num)⟩

/-- C9: Inversion symmetry: for every bounds pair and every `x`, the inverted
transform's `data_to_plot` is the negation of the non-inverted one's. -/
theorem data_to_plot_inverted_neg (b : ℚ × ℚ) (x : ℚ) :
    (LinearAxisTransform.mk true).data_to_plot b x =
      -((LinearAxisTransform.mk false).data_to_plot b x) := by
  simp [LinearAxisTransform.data_to_plot, LinearAxisTransform.sign]
  ring

/-- C6: Degenerate-spacing guard: whenever `|base_step_size|` is below machine
epsilon (`f64::EPSILON = 2⁻⁵²`), `grid_marks` returns the empty sequence. -/
theorem grid_marks_degenerate (t : LinearAxisTransform) (input : GridInput)
    (h : |input.base_step_size| < f64_EPSILON) :
    t.grid_marks input = [] := by
  simp [LinearAxisTransform.grid_marks, h]

/-- Witness for C6 at `base_step_size = 0`, `bounds = (0, 10)`. -/
theorem grid_marks_degenerate_witness :
    |(0 : ℚ)| < f64_EPSILON ∧
      (LinearAxisTransform.mk false).grid_marks ⟨(0, 10), 0⟩ = [] :=
  ⟨by norm_num [f64_EPSILON],
    grid_marks_degenerate (LinearAxisTransform.mk false) ⟨(0, 10), 0⟩
      (by norm_num [f64_EPSILON])⟩

/-- C2: End-to-end: `base_step_size = 1`, `bounds = (0, 25)` uses tiers
`(1, 10, 100)` and returns exactly: `0` with step 100, `10` and `20` with
step 10, every other integer in `1..24` with step 1, and nothing at `25`. -/
theorem grid_marks_zero_to_twentyfive :
    (next_power 1 10, next_power 1 10 * 10, next_power 1 10 * 10 * 10) =
        ((1 : ℚ), (10 : ℚ), (100 : ℚ)) ∧
      (LinearAxisTransform.mk false).grid_marks ⟨(0, 25), 1⟩ =
        [⟨0, 100⟩, ⟨1, 1⟩, ⟨2, 1⟩, ⟨3, 1⟩, ⟨4, 1⟩, ⟨5, 1⟩, ⟨6, 1⟩, ⟨7, 1⟩, ⟨8, 1⟩,
          ⟨9, 1⟩, ⟨10, 10⟩, ⟨11, 1⟩, ⟨12, 1⟩, ⟨13, 1⟩, ⟨14, 1⟩, ⟨15, 1⟩, ⟨16, 1⟩,
          ⟨17, 1⟩, ⟨18, 1⟩, ⟨19, 1⟩, ⟨20, 10⟩, ⟨21, 1⟩, ⟨22, 1⟩, ⟨23, 1⟩, ⟨24, 1⟩] := by
  constructor <;> with_unfolding_all rfl

/-- `cmp_f64` on two finite values, unfolded. -/
lemma cmp_f64_finite (x y : ℚ) :
    cmp_f64 (.finite x) (.finite y) = if x < y then .lt else if x = y then .eq else .gt := rfl

/-- On finite values, not-greater under `cmp_f64` is the numeric `≤`. -/
lemma cmp_f64_finite_ne_gt {x y : ℚ} :
    cmp_f64 (.finite x) (.finite y) ≠ .gt ↔ x ≤ y := by
  rw [cmp_f64_finite]
  split_ifs with h1 h2 <;> simp_all [le_iff_lt_or_eq]

/-- C7: `cmp_f64` is a total order on the float model: on two non-NaN values
it is the usual numeric ordering, a NaN compares greater than every non-NaN
value (so NaN orders last), two NaNs compare equal, and the order is
antisymmetric (swap) and transitive. -/
theorem cmp_f64_total_order :
    (∀ x y : ℚ, (cmp_f64 (.finite x) (.finite y) = .lt ↔ x < y) ∧
      (cmp_f64 (.finite x) (.finite y) = .eq ↔ x = y) ∧
      (cmp_f64 (.finite x) (.finite y) = .gt ↔ y < x)) ∧
    (∀ x : ℚ, cmp_f64 (.finite x) .nan = .lt ∧ cmp_f64 .nan (.finite x) = .gt) ∧
    cmp_f64 .nan .nan = .eq ∧
    (∀ a b : F64, cmp_f64 b a = (cmp_f64 a b).swap) ∧
    (∀ a b c : F64, cmp_f64 a b ≠ .gt → cmp_f64 b c ≠ .gt → cmp_f64 a c ≠ .gt) := by
  refine ⟨?_, fun x => ⟨rfl, rfl⟩, rfl, ?_, ?_⟩
  · intro x y
    rcases lt_trichotomy x y with h | h | h
    · simp [cmp_f64_finite, h, h.ne, asymm h]
    · subst h; simp [cmp_f64_finite, lt_irrefl]
    · simp [cmp_f64_finite, lt_asymm h, h.ne', h]
  · intro a b
    cases a with
    | nan => cases b with
      | nan => rfl
      | finite y => rfl
    | finite x => cases b with
      | nan => rfl
      | finite y =>
        rcases lt_trichotomy x y with h | h | h
        · simp [cmp_f64_finite, h, h.ne, h.ne', asymm h, Ordering.swap]
        · subst h; simp [cmp_f64_finite, lt_irrefl, Ordering.swap]
        · simp [cmp_f64_finite, lt_asymm h, h.ne', h.ne, h, Ordering.swap]
  · intro a b c hab hbc
    cases a with
    | nan => cases b with
      | finite q => exact absurd rfl hab
      | nan => cases c with
        | finite r => exact absurd rfl hbc
        | nan => exact hbc
    | finite x => cases b with
      | nan => cases c with
        | nan => exact hab
        | finite r => exact absurd rfl hbc
      | finite y => cases c with
        | nan => intro h; exact Ordering.noConfusion h
        | finite r =>
          rw [cmp_f64_finite_ne_gt] at hab hbc ⊢
          exact le_trans hab hbc

/-- Witness for C7 at concrete inputs `0`, `1`, `2` and NaN. -/
theorem cmp_f64_total_order_witness :
    cmp_f64 (.finite 0) (.finite 1) = .lt ∧
      cmp_f64 (.finite 0) .nan = .lt ∧
      cmp_f64 .nan (.finite 0) = .gt ∧
      cmp_f64 .nan .nan = .eq ∧
      cmp_f64 (.finite 0) (.finite 2) ≠ .gt :=
  ⟨(cmp_f64_total_order.1 0 1).1.mpr (by norm_num),
    (cmp_f64_total_order.2.1 0).1,
    (cmp_f64_total_order.2.1 0).2,
    cmp_f64_total_order.2.2.1,
    cmp_f64_total_order.2.2.2.2 (.finite 0) (.finite 1) (.finite 2)
      (cmp_f64_finite_ne_gt.mpr (by norm_num)) (cmp_f64_finite_ne_gt.mpr (by norm_num))⟩

/-- C5: Power rounding: for every nonzero `value` (and base `> 1`),
`next_power(value, base)` is `base ^ ⌈log_base |value|⌉`, which is positive,
at least `|value|`, and the smallest integer power of `base` that is at least
`|value|`; it depends only on the magnitude of `value`; and
`next_power(0.01, 10) = 0.01`, `next_power(0.02, 10) = 0.1`,
`next_power(0.2, 10) = 1`. -/
theorem next_power_correct (base : ℕ) (value : ℚ) (hb : 1 < base) (hv : value ≠ 0) :
    next_power value base = (base : ℚ) ^ Int.clog base |value| ∧
    0 < next_power value base ∧
    |value| ≤ next_power value base ∧
    (∀ k : ℤ, |value| ≤ (base : ℚ) ^ k → next_power value base ≤ (base : ℚ) ^ k) ∧
    next_power value base = next_power |value| base ∧
    next_power (1 / 100) 10 = 1 / 100 ∧ next_power (1 / 50) 10 = 1 / 10 ∧
    next_power (1 / 5) 10 = 1 := by
  have hb' : (1 : ℚ) < (base : ℚ) := by exact_mod_cast hb
  have hbpos : (0 : ℚ) < (base : ℚ) := lt_trans one_pos hb'
  refine ⟨rfl, zpow_pos hbpos _, Int.self_le_zpow_clog hb _, ?_, ?_, ?_, ?_, ?_⟩
  · intro k hk
    have habs : 0 < |value| := abs_pos.mpr hv
    have hle : Int.clog base |value| ≤ k := (Int.le_zpow_iff_clog_le hb habs).mp hk
    exact zpow_le_zpow_right₀ (le_of_lt hb') hle
  · rw [next_power, next_power, abs_abs]
  · with_unfolding_all rfl
  · with_unfolding_all rfl
  · with_unfolding_all rfl

/-- Witness for C5 at `base = 10`, `value = -2` (magnitude 2, rounded to 10). -/
theorem next_power_correct_witness :
    0 < next_power (-2) 10 ∧ |(-2 : ℚ)| ≤ next_power (-2) 10 ∧
      (|(-2 : ℚ)| ≤ (10 : ℚ) ^ (1 : ℤ) → next_power (-2) 10 ≤ (10 : ℚ) ^ (1 : ℤ)) ∧
      next_power (-2) 10 = next_power |(-2 : ℚ)| 10 := by
  have h := next_power_correct 10 (-2) (by norm_num) (by norm_num)
  exact ⟨h.2.1, h.2.2.1, h.2.2.2.1 1, h.2.2.2.2.1⟩

/-- C3: Interval fill: for `min ≤ max` and nonzero step, `fill_marks_between`
emits exactly one mark `⟨i * step_size, step_size⟩` per integer `i` with
`⌈min / step_size⌉ ≤ i < ⌈max / step_size⌉`; hence when `max` is an exact
multiple of `step_size` no mark sits at `max`; and filling at step `5` over
`(0, 10)` gives exactly the marks at `0` and `5` (no mark at `10`). -/
theorem fill_marks_between_correct (s mn mx : ℚ) (hs : s ≠ 0) (hmm : mn ≤ mx) :
    (∀ m : GridMark, m ∈ fill_marks_between [] s (mn, mx) ↔
      ∃ i : ℤ, ⌈mn / s⌉ ≤ i ∧ i < ⌈mx / s⌉ ∧ m = ⟨i * s, s⟩) ∧
    (fill_marks_between [] s (mn, mx)).length = (⌈mx / s⌉ - ⌈mn / s⌉).toNat ∧
    (fill_marks_between [] s (mn, mx)).Nodup ∧
    ((∃ j : ℤ, mx = j * s) → ∀ m ∈ fill_marks_between [] s (mn, mx), m.value ≠ mx) ∧
    fill_marks_between [] 5 (0, 10) = [⟨0, 5⟩, ⟨5, 5⟩] := by
  have hmem : ∀ m : GridMark, m ∈ fill_marks_between [] s (mn, mx) ↔
      ∃ i : ℤ, ⌈mn / s⌉ ≤ i ∧ i < ⌈mx / s⌉ ∧ m = ⟨i * s, s⟩ := by
    intro m
    simp only [fill_marks_between, List.nil_append, List.mem_map, List.mem_range]
    constructor
    · rintro ⟨k, hk, rfl⟩
      refine ⟨⌈mn / s⌉ + (k : ℤ), by omega, by omega, ?_⟩
      congr 1
      push_cast
      ring
    · rintro ⟨i, h1, h2, rfl⟩
      refine ⟨(i - ⌈mn / s⌉).toNat, by omega, ?_⟩
      have hi : (⌈mn / s⌉ : ℤ) + (((i - ⌈mn / s⌉).toNat : ℕ) : ℤ) = i := by omega
      have hq : ((⌈mn / s⌉ : ℤ) : ℚ) + (((i - ⌈mn / s⌉).toNat : ℕ) : ℚ) = (i : ℚ) := by
        exact_mod_cast hi
      congr 1
      push_cast
      push_cast at hq
      rw [hq]
  refine ⟨hmem, ?_, ?_, ?_, ?_⟩
  · simp [fill_marks_between]
  · refine List.Nodup.map ?_ (List.nodup_range _)
    intro k1 k2 hk
    have h1 : (⌈mn / s⌉ + (k1 : ℤ)) * s = (⌈mn / s⌉ + (k2 : ℤ)) * s :=
      congrArg GridMark.value hk
    have h2 : (⌈mn / s⌉ + (k1 : ℤ) : ℚ) = (⌈mn / s⌉ + (k2 : ℤ) : ℚ) :=
      mul_right_cancel₀ hs (by exact_mod_cast h1)
    have h3 : ⌈mn / s⌉ + (k1 : ℤ) = ⌈mn / s⌉ + (k2 : ℤ) := by exact_mod_cast h2
    omega
  · rintro ⟨j, rfl⟩ m hm hval
    rcases (hmem m).mp hm with ⟨i, hi1, hi2, rfl⟩
    have hij : (i : ℚ) = (j : ℚ) := mul_right_cancel₀ hs (by exact_mod_cast hval)
    have hij' : i = j := by exact_mod_cast hij
    have hceil : ⌈(j * s) / s⌉ = j := by
      rw [mul_div_assoc, div_self hs, mul_one, Int.ceil_intCast]
    omega
  · with_unfolding_all rfl

/-- Witness for C3 at `step = 5`, interval `(0, 10)`. -/
theorem fill_marks_between_correct_witness :
    fill_marks_between [] 5 (0, 10) = [⟨0, 5⟩, ⟨5, 5⟩] :=
  (fill_marks_between_correct 5 0 10 (by norm_num) (by norm_num)).2.2.2.2

/-- The spacing guarantee between a kept mark `a` and the next kept mark `b`
after deduplication with threshold `eps`. -/
def markGap (eps : ℚ) (a b : GridMark) : Prop :=
  a.value ≤ b.value ∧ eps ≤ b.value - a.value

/-- One deduplication step only ever keeps marks that were already in the
accumulator or the incoming mark itself. -/
lemma mem_dedup_step {eps : ℚ} {acc : List GridMark} {x m : GridMark}
    (hm : m ∈ dedup_step eps acc x) : m ∈ acc ∨ m = x := by
  cases acc with
  | nil =>
    simp only [dedup_step, List.mem_singleton] at hm
    exact Or.inr hm
  | cons last rest =>
    simp only [dedup_step] at hm
    split_ifs at hm with h1 h2 <;> simp [List.mem_cons] at hm ⊢ <;> tauto

/-- The deduplication fold only selects among the accumulator and the input
list; it never fabricates a new mark. -/
lemma mem_foldl_dedup {eps : ℚ} :
    ∀ (l acc : List GridMark) (m : GridMark),
      m ∈ l.foldl (dedup_step eps) acc → m ∈ acc ∨ m ∈ l := by
  intro l
  induction l with
  | nil => exact fun acc m hm => Or.inl hm
  | cons x xs ih =>
    intro acc m hm
    rcases ih (dedup_step eps acc x) m hm with h | h
    · rcases mem_dedup_step h with h' | h'
      · exact Or.inl h'
      · exact Or.inr (h' ▸ List.mem_cons_self x xs)
    · exact Or.inr (List.mem_cons_of_mem _ h)

/-- Invariant of the deduplication fold: starting from a reversed accumulator
whose consecutive marks satisfy the spacing guarantee and which lies entirely
below the sorted input, the fold preserves the guarantee. -/
lemma foldl_dedup_chain (eps : ℚ) :
    ∀ (l acc : List GridMark),
      List.Sorted markLE l →
      (∀ a ∈ acc, ∀ x ∈ l, a.value ≤ x.value) →
      List.Chain' (flip (markGap eps)) acc →
      List.Chain' (flip (markGap eps)) (l.foldl (dedup_step eps) acc) := by
  intro l
  induction l with
  | nil => exact fun acc _ _ hc => hc
  | cons x xs ih =>
    intro acc hs hbelow hc
    rw [List.foldl_cons]
    have hsc := List.sorted_cons.mp hs
    apply ih (dedup_step eps acc x) hsc.2
    · intro a ha y hy
      rcases mem_dedup_step ha with h | rfl
      · exact hbelow a h y (List.mem_cons_of_mem _ hy)
      · exact hsc.1 y hy
    · cases acc with
      | nil => simp [dedup_step]
      | cons last rest =>
        have hlastx : last.value ≤ x.value :=
          hbelow last (List.mem_cons_self _ _) x (List.mem_cons_self _ _)
        simp only [dedup_step]
        split_ifs with h1 h2
        · cases rest with
          | nil => simp
          | cons r rs =>
            rw [List.chain'_cons] at hc ⊢
            rcases hc.1 with ⟨hrl, hrg⟩
            exact ⟨⟨le_trans hrl hlastx, by linarith⟩, hc.2⟩
        · exact hc
        · rw [List.chain'_cons]
          have habs : eps ≤ x.value - last.value := by
            rw [abs_sub_comm, abs_of_nonneg (sub_nonneg.mpr hlastx)] at h1
            linarith [not_lt.mp h1]
          exact ⟨⟨hlastx, habs⟩, hc⟩

/-- A mark emitted by `fill_marks_between` beyond the incoming list carries
the pass's step size and a value that is an integer multiple of it. -/
lemma fill_marks_between_shape {out : List GridMark} {s : ℚ} {b : ℚ × ℚ}
    {m : GridMark} (hm : m ∈ fill_marks_between out s b) :
    m ∈ out ∨ (m.step_size = s ∧ ∃ i : ℤ, m.value = (i : ℚ) * s) := by
  simp only [fill_marks_between, List.mem_append, List.mem_map, List.mem_range] at hm
  rcases hm with h | ⟨k, _, rfl⟩
  · exact Or.inl h
  · refine Or.inr ⟨rfl, ⟨⌈b.1 / s⌉ + k, ?_⟩⟩
    push_cast
    ring

/-- C4: Deduplicated output shape: for every step-size triple and bounds with
`min ≤ max`, consecutive marks of `generate_marks` are ascending and differ by
at least `eps = 0.1 * min(s0, s1, s2)`; and whenever a candidate falls within
`eps` of the last kept mark, the deduplication step keeps whichever of the two
has the larger step size. -/
theorem generate_marks_spacing (s0 s1 s2 bmin bmax : ℚ) (_h : bmin ≤ bmax) :
    List.Chain'
      (fun a b => a.value ≤ b.value ∧ 1 / 10 * min_step (s0, s1, s2) ≤ b.value - a.value)
      (generate_marks (s0, s1, s2) (bmin, bmax)) ∧
    (∀ (eps : ℚ) (last step : GridMark) (rest : List GridMark),
      |last.value - step.value| < eps →
      dedup_step eps (last :: rest) step =
        (if last.step_size < step.step_size then step else last) :: rest) := by
  constructor
  · show List.Chain' (markGap (1 / 10 * min_step (s0, s1, s2)))
      (generate_marks (s0, s1, s2) (bmin, bmax))
    simp only [generate_marks]
    rw [List.chain'_reverse]
    apply foldl_dedup_chain
    · exact List.sorted_insertionSort markLE _
    · intro a ha
      simp at ha
    · simp
  · intro eps last step rest h1
    simp only [dedup_step]
    rw [if_pos h1]
    split_ifs with h2 <;> rfl

/-- Witness for C4 at tiers `(1, 10, 100)` and bounds `(0, 25)`. -/
theorem generate_marks_spacing_witness :
    List.Chain'
      (fun a b => a.value ≤ b.value ∧ 1 / 10 * min_step (1, 10, 100) ≤ b.value - a.value)
      (generate_marks (1, 10, 100) (0, 25)) ∧
      dedup_step (1 / 10) ([⟨0, 1⟩] : List GridMark) ⟨0, 10⟩ = [⟨0, 10⟩] := by
  have h := generate_marks_spacing 1 10 100 0 25 (by norm_num)
  refine ⟨h.1, ?_⟩
  have h2 := h.2 (1 / 10) ⟨0, 1⟩ ⟨0, 10⟩ [] (by norm_num)
  rw [h2]
  norm_num

/-- C10: Implicit mark invariant: every mark returned by `grid_marks` (for a
non-degenerate step size and ordered bounds) carries one of the three tier
step sizes `unit`, `unit·10`, `unit·100` with `unit = next_power(base, 10)`,
its value is an integer multiple of its own step size, and it is one of the
marks produced by the three fill passes — deduplication never fabricates a
mark. -/
theorem grid_marks_tier_invariant (t : LinearAxisTransform) (input : GridInput)
    (h1 : f64_EPSILON ≤ |input.base_step_size|) (_h2 : input.bounds.1 ≤ input.bounds.2) :
    ∀ m ∈ t.grid_marks input,
      (m.step_size = next_power input.base_step_size 10 ∨
        m.step_size = next_power input.base_step_size 10 * 10 ∨
        m.step_size = next_power input.base_step_size 10 * 100) ∧
      (∃ i : ℤ, m.value = (i : ℚ) * m.step_size) ∧
      m ∈ fill_marks_between
            (fill_marks_between
              (fill_marks_between [] (next_power input.base_step_size 10) input.bounds)
              (next_power input.base_step_size 10 * 10) input.bounds)
            (next_power input.base_step_size 10 * 10 * 10) input.bounds := by
  intro m hm
  simp only [LinearAxisTransform.grid_marks] at hm
  rw [if_neg (not_lt.mpr h1)] at hm
  simp only [generate_marks] at hm
  rw [List.mem_reverse] at hm
  have hsteps : m ∈ sort_marks
      (fill_marks_between
        (fill_marks_between
          (fill_marks_between [] (next_power input.base_step_size 10) input.bounds)
          (next_power input.base_step_size 10 * 10) input.bounds)
        (next_power input.base_step_size 10 * 10 * 10) input.bounds) := by
    rcases mem_foldl_dedup _ _ m hm with h | h
    · simp at h
    · exact h
  have hfill : m ∈ fill_marks_between
      (fill_marks_between
        (fill_marks_between [] (next_power input.base_step_size 10) input.bounds)
        (next_power input.base_step_size 10 * 10) input.bounds)
      (next_power input.base_step_size 10 * 10 * 10) input.bounds :=
    (List.perm_insertionSort markLE _).subset hsteps
  refine ⟨?_, ?_, hfill⟩
  · rcases fill_marks_between_shape hfill with h | ⟨hstep, _⟩
    · rcases fill_marks_between_shape h with h' | ⟨hstep, _⟩
      · rcases fill_marks_between_shape h' with h'' | ⟨hstep, _⟩
        · simp at h''
        · exact Or.inl hstep
      · exact Or.inr (Or.inl hstep)
    · refine Or.inr (Or.inr ?_)
      rw [hstep]; ring
  · rcases fill_marks_between_shape hfill with h | ⟨hstep, i, hval⟩
    · rcases fill_marks_between_shape h with h' | ⟨hstep, i, hval⟩
      · rcases fill_marks_between_shape h' with h'' | ⟨hstep, i, hval⟩
        · simp at h''
        · exact ⟨i, by rw [hval, hstep]⟩
      · exact ⟨i, by rw [hval, hstep]⟩
    · exact ⟨i, by rw [hval, hstep]⟩

/-- Witness for C10 at `base_step_size = 1`, `bounds = (0, 25)`, and the
returned mark `⟨0, 100⟩`. -/
theorem grid_marks_tier_invariant_witness :
    ((⟨0, 100⟩ : GridMark).step_size = next_power 1 10 ∨
      (⟨0, 100⟩ : GridMark).step_size = next_power 1 10 * 10 ∨
      (⟨0, 100⟩ : GridMark).step_size = next_power 1 10 * 100) ∧
      (∃ i : ℤ, (⟨0, 100⟩ : GridMark).value = (i : ℚ) * (⟨0, 100⟩ : GridMark).step_size) ∧
      (⟨0, 100⟩ : GridMark) ∈ fill_marks_between
        (fill_marks_between (fill_marks_between [] (next_power 1 10) (0, 25))
          (next_power 1 10 * 10) (0, 25))
        (next_power 1 10 * 10 * 10) (0, 25) := by
  have hmem : (⟨0, 100⟩ : GridMark) ∈
      (LinearAxisTransform.mk false).grid_marks ⟨(0, 25), 1⟩ := by
    have he : (LinearAxisTransform.mk false).grid_marks ⟨(0, 25), 1⟩ =
        [⟨0, 100⟩, ⟨1, 1⟩, ⟨2, 1⟩, ⟨3, 1⟩, ⟨4, 1⟩, ⟨5, 1⟩, ⟨6, 1⟩, ⟨7, 1⟩, ⟨8, 1⟩,
          ⟨9, 1⟩, ⟨10, 10⟩, ⟨11, 1⟩, ⟨12, 1⟩, ⟨13, 1⟩, ⟨14, 1⟩, ⟨15, 1⟩, ⟨16, 1⟩,
          ⟨17, 1⟩, ⟨18, 1⟩, ⟨19, 1⟩, ⟨20, 10⟩, ⟨21, 1⟩, ⟨22, 1⟩, ⟨23, 1⟩, ⟨24, 1⟩] := by
      with_unfolding_all rfl
    rw [he]
    exact List.mem_cons_self _ _
  exact grid_marks_tier_invariant (LinearAxisTransform.mk false) ⟨(0, 25), 1⟩
    (by norm_num [f64_EPSILON]) (by norm_num) ⟨0, 100⟩ hmem

/-- Both-sided inverse: `data_to_plot` after `plot_to_data` is the identity for
non-degenerate bounds. -/
lemma data_to_plot_plot_to_data (t : LinearAxisTransform) (bmin bmax y : ℚ)
    (h : bmin ≠ bmax) :
    t.data_to_plot (bmin, bmax) (t.plot_to_data (bmin, bmax) y) = y := by
  have hd : bmax - bmin ≠ 0 := sub_ne_zero.mpr (Ne.symm h)
  rcases t with ⟨i⟩
  cases i <;>
    simp only [LinearAxisTransform.plot_to_data, LinearAxisTransform.data_to_plot,
      LinearAxisTransform.sign, if_true, if_false, Bool.false_eq_true] <;>
    field_simp

/-- If the normalized offset `(x - min) / (max - min)` lies in `[0, 1]`, then
`x` lies between `min` and `max` (in either order). -/
lemma mem_uIcc_of_unit {bmin bmax x : ℚ} (hd : bmax - bmin ≠ 0)
    (h0 : 0 ≤ (x - bmin) / (bmax - bmin)) (h1 : (x - bmin) / (bmax - bmin) ≤ 1) :
    x ∈ Set.uIcc bmin bmax := by
  have hv : (x - bmin) / (bmax - bmin) * (bmax - bmin) = x - bmin :=
    div_mul_cancel₀ _ hd
  rw [Set.mem_uIcc]
  rcases lt_or_gt_of_ne hd with hlt | hlt
  · have hd0 : bmax - bmin ≤ 0 := le_of_lt hlt
    have k1 := mul_le_mul_of_nonpos_right h1 hd0
    have k2 := mul_le_mul_of_nonpos_right h0 hd0
    right
    constructor <;> linarith
  · have hd0 : 0 ≤ bmax - bmin := le_of_lt hlt
    have k1 := mul_le_mul_of_nonneg_right h1 hd0
    have k2 := mul_le_mul_of_nonneg_right h0 hd0
    left
    constructor <;> linarith

/-- C8 (counterexample): the claim's unclamped-range clause fails as stated:
for the inverted transform with bounds `(0, 10)` (non-degenerate) the input
`x = -5` lies outside `[min, max]` yet maps to `1/2 ∈ [0, 1]`. -/
theorem data_to_plot_not_clamped_cex :
    ((0 : ℚ) ≠ 10) ∧ (-5 : ℚ) ∉ Set.Icc (0 : ℚ) 10 ∧
      (LinearAxisTransform.mk true).data_to_plot (0, 10) (-5) ∈ Set.Icc (0 : ℚ) 1 := by
  refine ⟨by norm_num, by simp, ?_⟩
  have hv : (LinearAxisTransform.mk true).data_to_plot (0, 10) (-5) = 1 / 2 := by
    with_unfolding_all rfl
  rw [hv, Set.mem_Icc]
  norm_num

/-- C8 (amended): forward transform: for every bounds pair with `min ≠ max`
and every `x`, `data_to_plot` is `sign * (x - min) / (max - min)`; it is a
bijection of the rationals sending `min` to `0` and `max` to `sign * 1`; and
it is not clamped: `x` outside the interval between `min` and `max` maps
outside the interval between `0` and `sign * 1` (the claim's plain `[0, 1]`
is correct only for the non-inverted transform, as the counterexample shows). -/
theorem data_to_plot_formula (t : LinearAxisTransform) (bmin bmax x : ℚ)
    (h : bmin ≠ bmax) :
    t.data_to_plot (bmin, bmax) x = t.sign * (x - bmin) / (bmax - bmin) ∧
    Function.Bijective (fun y => t.data_to_plot (bmin, bmax) y) ∧
    t.data_to_plot (bmin, bmax) bmin = 0 ∧
    t.data_to_plot (bmin, bmax) bmax = t.sign * 1 ∧
    (x ∉ Set.uIcc bmin bmax →
      t.data_to_plot (bmin, bmax) x ∉ Set.uIcc 0 (t.sign * 1)) := by
  have hd : bmax - bmin ≠ 0 := sub_ne_zero.mpr (Ne.symm h)
  refine ⟨rfl, ?_, ?_, ?_, ?_⟩
  · rw [Function.bijective_iff_has_inverse]
    exact ⟨fun y => t.plot_to_data (bmin, bmax) y,
      fun y => plot_to_data_data_to_plot t bmin bmax y h,
      fun y => data_to_plot_plot_to_data t bmin bmax y h⟩
  · simp [LinearAxisTransform.data_to_plot]
  · rcases t with ⟨i⟩
    cases i <;>
      simp only [LinearAxisTransform.data_to_plot, LinearAxisTransform.sign,
        if_true, if_false, Bool.false_eq_true] <;>
      field_simp
  · intro hx hv
    apply hx
    rcases t with ⟨i⟩
    cases i
    · simp only [LinearAxisTransform.data_to_plot, LinearAxisTransform.sign,
        Bool.false_eq_true, if_false, one_mul, mul_one] at hv
      rw [Set.uIcc_of_le (by norm_num : (0 : ℚ) ≤ 1), Set.mem_Icc] at hv
      exact mem_uIcc_of_unit hd hv.1 hv.2
    · simp only [LinearAxisTransform.data_to_plot, LinearAxisTransform.sign,
        if_true, mul_one, neg_one_mul, neg_div] at hv
      rw [Set.uIcc_of_ge (by norm_num : (-1 : ℚ) ≤ 0), Set.mem_Icc] at hv
      exact mem_uIcc_of_unit hd (by linarith [hv.1, hv.2]) (by linarith [hv.1, hv.2])

/-- Witness for C8 (amended) at `invert = false`, `bounds = (0, 10)`,
`x = 20`. -/
theorem data_to_plot_formula_witness :
    (LinearAxisTransform.mk false).data_to_plot (0, 10) 20 =
        (LinearAxisTransform.mk false).sign * (20 - 0) / (10 - 0) ∧
      (LinearAxisTransform.mk false).data_to_plot (0, 10) 0 = 0 ∧
      (LinearAxisTransform.mk false).data_to_plot (0, 10) 10 =
        (LinearAxisTransform.mk false).sign * 1 ∧
      ((20 : ℚ) ∉ Set.uIcc (0 : ℚ) 10 →
        (LinearAxisTransform.mk false).data_to_plot (0, 10) 20 ∉
          Set.uIcc 0 ((LinearAxisTransform.mk false).sign * 1)) := by
  have h := data_to_plot_formula (LinearAxisTransform.mk false) 0 10 20 (by norm_num)
  exact ⟨h.1, h.2.2.1, h.2.2.2.1, h.2.2.2.2⟩
